import Mathlib

/-!
Verification of the `trx` directory-tree builder (`src/lib.rs`) against its
natural-language specification.

The embedding is shallow:
* Rust `String`/`&str` values are `List Char` (`Str`); `PathBuf` is a list of
  components (`Path`).  Joining uses `'/'` exactly as `PathBuf::push` /
  `to_string_lossy` do for relative paths.
* glob-crate `Pattern`s are token lists (`Pat`); `Pattern::new` is `compilePat`
  and `Pattern::matches_path_with` is `patMatch`.  `Dir::from` always builds its
  `MatchOptions` with `require_literal_separator = false` and
  `require_literal_leading_dot = false`, so under those options `*` and `?` may
  cross `/` and a leading `.` needs no special casing; the matcher below bakes
  those two option values in.  Character classes (`[...]`) and recursive
  wildcards (`**`) lie outside the fragment exercised by any claim; the
  compiler conservatively rejects them (`none`), mirroring that no theorem in
  this file depends on their behaviour.
* The filesystem is a record of functions (`FSys`); `Option` results model
  fallible syscalls, with `none` standing for the I/O error that the source
  immediately turns into a panic via `unwrap()`.
* `Dir::from` is fuel-indexed (`dirFrom`); running out of fuel is reported as
  `aborted`, the same observable as a panic, and every theorem supplies enough
  fuel for the tree at hand.
-/

namespace Trx

/-- Rust strings, modelled as their character lists. -/
abbrev Str := List Char

/-- A `PathBuf`, as its list of components (no separators inside components). -/
abbrev Path := List Str

/-- Does the string start with the given character? (`str::starts_with(char)`). -/
def strStarts (l : Str) (c : Char) : Bool :=
  match l with
  | [] => false
  | a :: _ => a == c

/-- Does the string start with `\#` or `\!`? (`str::starts_with("\\#")` etc.). -/
def strStartsEsc (l : Str) : Bool :=
  match l with
  | a :: b :: _ => a == '\\' && (b == '#' || b == '!')
  | _ => false

/-- `str::trim`: drop whitespace from both ends. -/
def strTrim (l : Str) : Str :=
  (l.dropWhile Char.isWhitespace).reverse.dropWhile Char.isWhitespace |>.reverse

/-- `PathBuf::to_string_lossy` for a component list: components joined by `/`. -/
def pathChars : Path → Str
  | [] => []
  | [c] => c
  | c :: rest => c ++ '/' :: pathChars rest

/-- Literal component strings used by the development. -/
def sDot : Str := ".".data

def sDotDot : Str := "..".data

def sDotStar : Str := ".*".data

/-- `Path::file_name`: the final component, unless it is `.` or `..` (or the
path is empty), in which case there is none. -/
def fileName (p : Path) : Option Str :=
  match p.getLast? with
  | none => none
  | some c => if c = sDot ∨ c = sDotDot then none else some c

/-- `PathBuf::set_file_name`: replace the final component if there is a file
name, otherwise push the new component. -/
def setFileName (p : Path) (s : Str) : Path :=
  match fileName p with
  | some _ => p.dropLast ++ [s]
  | none => p ++ [s]

/-- `PathBuf::push(s)` at the string level: an absolute `s` replaces the path,
otherwise a `/` separator is inserted when needed. -/
def pushStr (d : Str) (s : Str) : Str :=
  if strStarts s '/' then s
  else if d = [] then s
  else d ++ '/' :: s

/-! ## The glob-crate pattern model -/

/-- Compiled pattern tokens (glob crate): a literal character, `?`, or `*`. -/
inductive Tok where
  | lit (c : Char)
  | anyChar
  | anySeq
deriving DecidableEq, Repr

/-- A compiled `glob::Pattern`. -/
abbrev Pat := List Tok

/-- `Pattern::new`: tokenise a pattern string.  `none` models a
`PatternError`.  `**` and `[...]` are outside the modelled fragment and are
rejected conservatively; no claim exercises them. -/
def compilePat : Str → Option Pat
  | [] => some []
  | c :: rest =>
    if c == '?' then (compilePat rest).map (Tok.anyChar :: ·)
    else if c == '*' then
      if strStarts rest '*' then none
      else (compilePat rest).map (Tok.anySeq :: ·)
    else if c == '[' then none
    else (compilePat rest).map (Tok.lit c :: ·)

/-- Rust `char::is_ascii`. -/
def charIsAscii (c : Char) : Bool := c.toNat ≤ 127

/-- glob's `chars_eq` on unix: optional ASCII case folding, exact equality
otherwise.  The `caseSensitive` flag is `MatchOptions::case_sensitive`. -/
def charEq (caseSensitive : Bool) (a b : Char) : Bool :=
  if !caseSensitive && charIsAscii a && charIsAscii b then a.toLower == b.toLower
  else a == b

/-- A pattern matches the empty string exactly when only `*` tokens remain. -/
def patNil : Pat → Bool
  | [] => true
  | .anySeq :: ts => patNil ts
  | _ => false

/-- One step of the backtracking matcher against the current first character
(compared via `eqd`), where `rest` matches a token list against the remaining
string: a literal or `?` consumes the character, `*` either matches nothing
here or consumes the character and stays. -/
def patStep (eqd : Char → Bool) (rest : Pat → Bool) : Pat → Bool
  | [] => false
  | .lit c :: ts => eqd c && rest ts
  | .anyChar :: ts => rest ts
  | .anySeq :: ts => patStep eqd rest ts || rest (.anySeq :: ts)

/-- The backtracking matcher, structured by recursion on the string. -/
def patMatchAux (caseSensitive : Bool) : Str → Pat → Bool
  | [], ts => patNil ts
  | d :: ds, ts => patStep (fun c => charEq caseSensitive c d) (patMatchAux caseSensitive ds) ts

/-- `Pattern::matches_path_with` under `require_literal_separator = false` and
`require_literal_leading_dot = false`: classic backtracking wildcard match on
the path's character string. -/
def patMatch (caseSensitive : Bool) (p : Pat) (s : Str) : Bool :=
  patMatchAux caseSensitive s p

/-! ## The filesystem model

Each field models one family of syscalls; `none` is the I/O error that the
source turns into a panic via `unwrap()`.  `meta` is the link-following
`Path::metadata` (so `Path::is_dir` is derived from it and a failing stat
yields `false`, exactly as in Rust); `entryMeta` is the non-following
`DirEntry::metadata` used by the `dirs_only` filter. -/

/-- A metadata snapshot: `is_dir`, the unix permission `mode()` bits, and
`permissions().readonly()`. -/
structure Meta where
  isDir : Bool
  mode : Nat
  readonly : Bool
deriving DecidableEq, Repr

/-- The ambient filesystem. -/
structure FSys where
  /-- `Path::metadata` (follows symlinks); `none` = error. -/
  meta : Path → Option Meta
  /-- `DirEntry::metadata` (does not follow symlinks); `none` = error. -/
  entryMeta : Path → Option Meta
  /-- `fs::read_dir`: names of the directory's entries; `none` = error. -/
  listDir : Path → Option (List Str)
  /-- `Path::read_link`: the raw link target, `some` exactly on symlinks. -/
  readLink : Path → Option Str
  /-- `canonicalize(target).unwrap_or(target).starts_with(obj)` for the link at
  `obj`; only consulted when `readLink` is `some`. -/
  linkInside : Path → Bool
  /-- The line list of `dir/.gitignore`, or `none` when the file is absent or
  unreadable (both collapse to "no rules" in `in_dir_or_default`). -/
  gitignore : Path → Option (List Str)

/-- `Path::is_dir` = `metadata().map(|m| m.is_dir()).unwrap_or(false)`. -/
def pIsDir (fs : FSys) (p : Path) : Bool :=
  match fs.meta p with
  | some m => m.isDir
  | none => false

/-! ## Configuration -/

/-- `SearchOpts` (`src/lib.rs:22`); pattern slices hold compiled patterns. -/
structure SearchOpts where
  dirs_only : Bool := false
  follow_symlinks : Bool := false
  show_hidden : Bool := false
  stay_on_fs : Bool := false
  max_depth : Option Nat := none
  use_gitignores : Bool := false
  vcs_whitelist_patterns : List Pat := []
  vcs_blacklist_patterns : List Pat := []
  positive_patterns : List Pat := []
  negative_patterns : List Pat := []
  case_insensitive_match : Bool := false

/-! ## The ignore resolver (`VcsIgnore`) -/

/-- `VcsIgnore` (`src/lib.rs:429`). -/
structure VcsIgnore where
  black : List Pat := []
  white : List Pat := []
deriving Repr

/-- `VcsIgnore::glob2pat`: root the pattern string at the ignore file's
directory, then compile it. -/
def glob2pat (dir : Path) (s : Str) : Option Pat :=
  compilePat (pushStr (pathChars dir) s)

/-- The line loop of `VcsIgnore::new`, returning `(black, white)` in line
order; `none` models the `Err` return on a pattern-compile failure. -/
def vcsLines (parent : Path) : List Str → Option (List Pat × List Pat)
  | [] => some ([], [])
  | line :: rest =>
    let t := strTrim line
    if strStarts t '#' then vcsLines parent rest
    else
      let t1 := if strStarts t '/' then t.drop 1 else t
      if strStarts t1 '!' then
        match glob2pat parent (t1.drop 1), vcsLines parent rest with
        | some p, some bw => some (bw.1, p :: bw.2)
        | _, _ => none
      else
        let t2 := if strStartsEsc t1 then t1.drop 1 else t1
        match glob2pat parent t2, vcsLines parent rest with
        | some p, some bw => some (p :: bw.1, bw.2)
        | _, _ => none

/-- `VcsIgnore::new` on the line list of `dir/.gitignore` (whose `parent` is
`dir` itself). -/
def vcsNew (dir : Path) (lines : List Str) : Option VcsIgnore :=
  (vcsLines dir lines).map fun bw => { black := bw.1, white := bw.2 }

/-- `VcsIgnore::in_dir_or_default`: a missing, unreadable or malformed ignore
file degrades to the empty rule set. -/
def inDirOrDefault (fs : FSys) (dir : Path) : VcsIgnore :=
  match fs.gitignore dir with
  | none => {}
  | some lines => (vcsNew dir lines).getD {}

/-- `VcsIgnore::compose`: append the inherited lists after the own ones. -/
def VcsIgnore.compose (v : VcsIgnore) (otherBlack otherWhite : List Pat) : VcsIgnore :=
  { black := v.black ++ otherBlack, white := v.white ++ otherWhite }

/-! ## The tree -/

/-- `FType` (`src/lib.rs:49`). -/
inductive FType where
  | dir
  | exe
  | file
  | link (target : Str)
deriving DecidableEq, Repr

/-- `FType::is_exec` (unix): directories are `Dir`; otherwise the low mode bit
(`mode() % 2`) decides `Exe` vs `File`.  `none` models the `unwrap` panic on
unreadable metadata. -/
def isExecF (fs : FSys) (p : Path) : Option FType :=
  if pIsDir fs p then some .dir
  else
    match fs.meta p with
    | none => none
    | some m => some (if m.mode % 2 == 1 then .exe else .file)

/-- A `Dir` node (`src/lib.rs:87`); the render-only fields `nest` and `format`
are omitted. -/
inductive Dir where
  | mk (path : Path) (contents : List Dir) (ftype : FType) (read_only : Bool)

/-- The node's path. -/
def Dir.path : Dir → Path
  | .mk p _ _ _ => p

/-- The node's children. -/
def Dir.contents : Dir → List Dir
  | .mk _ cs _ _ => cs

/-- The node's kind. -/
def Dir.ftype : Dir → FType
  | .mk _ _ ft _ => ft

/-- The node's read-only snapshot. -/
def Dir.read_only : Dir → Bool
  | .mk _ _ _ ro => ro

/-! ## `Dir::from` -/

/-- Outcome of one `Dir::from` call: a panic/abort, `None`, or `Some(node)`. -/
inductive FromRes where
  | aborted
  | excluded
  | node (t : Dir)

/-- The hidden-file test (`src/lib.rs:123`): build a pattern from the path
with its file name replaced by `.*` and match it against the path itself.
The `&&` in the source is lazy, so with `show_hidden` set the pattern is never
compiled; `none` models the `unwrap` panic on a compile failure. -/
def hiddenStep (cfg : SearchOpts) (obj : Path) : Option Bool :=
  if cfg.show_hidden then some false
  else
    (compilePat (pathChars (setFileName obj sDotStar))).map fun p =>
      patMatch (!cfg.case_insensitive_match) p (pathChars obj)

/-- The exclusion loop (`src/lib.rs:134`): some pattern of
`negative_patterns ++ vcs_blacklist_patterns` matches while no
`vcs_whitelist_patterns` entry does. -/
def excludedBy (cfg : SearchOpts) (s : Str) : Bool :=
  (cfg.negative_patterns ++ cfg.vcs_blacklist_patterns).any fun pat =>
    patMatch (!cfg.case_insensitive_match) pat s &&
      !(cfg.vcs_whitelist_patterns.any fun w =>
        patMatch (!cfg.case_insensitive_match) w s)

/-- The depth arithmetic (`src/lib.rs:156`): whether to recurse, and the
child budget. -/
def depthStep : Option Nat → Bool × Option Nat
  | some 0 => (false, none)
  | some (n + 1) => (true, some n)
  | none => (true, none)

/-- The rule set a directory composes for its children (`src/lib.rs:164`). -/
def ignoreListFor (fs : FSys) (cfg : SearchOpts) (obj : Path) : VcsIgnore :=
  (if cfg.use_gitignores then inDirOrDefault fs obj else {}).compose
    cfg.vcs_blacklist_patterns cfg.vcs_whitelist_patterns

/-- The `SearchOpts` value passed to each recursive call (`src/lib.rs:178`). -/
def childCfg (fs : FSys) (cfg : SearchOpts) (obj : Path) (d : Option Nat) : SearchOpts :=
  { cfg with
    max_depth := d
    vcs_blacklist_patterns := (ignoreListFor fs cfg obj).black
    vcs_whitelist_patterns := (ignoreListFor fs cfg obj).white }

/-- The `dirs_only` filter (`src/lib.rs:174`): keep directories (per the
non-following `DirEntry::metadata`), panicking (`none`) on a failed stat. -/
def dirsOnlyFilter (fs : FSys) (b : Bool) : List Path → Option (List Path)
  | [] => some []
  | p :: ps =>
    if b then
      match fs.entryMeta p with
      | none => none
      | some m =>
        if m.isDir then (dirsOnlyFilter fs b ps).map (p :: ·)
        else dirsOnlyFilter fs b ps
    else (dirsOnlyFilter fs b ps).map (p :: ·)

/-- The non-followed-symlink branch (`src/lib.rs:195`): a terminal
`SymbolicLink` node carrying the raw target, with `unwrap` panics on the
re-read of the link and on metadata. -/
def linkNode (fs : FSys) (obj : Path) : FromRes :=
  match fs.readLink obj, fs.meta obj with
  | some tgt, some m => .node (.mk obj [] (.link tgt) m.readonly)
  | _, _ => .aborted

/-- The leaf branch (`src/lib.rs:203`): positive-pattern admission, then
classification via `FType::is_exec` and the metadata `unwrap`. -/
def leafNode (fs : FSys) (cfg : SearchOpts) (obj : Path) : FromRes :=
  if cfg.positive_patterns.isEmpty
      || cfg.positive_patterns.any fun p =>
           patMatch (!cfg.case_insensitive_match) p (pathChars obj) then
    match isExecF fs obj with
    | none => .aborted
    | some ft =>
      match fs.meta obj with
      | none => .aborted
      | some m => .node (.mk obj [] ft m.readonly)
  else .excluded

/-- The `filter_map`/`collect` over a directory's entries (`src/lib.rs:175`),
parameterised by the recursive call `f` (which is `Dir::from` at the child
fuel): excluded children contribute nothing; a child panic propagates
(`none`). -/
def dirFromChildren (f : SearchOpts → Path → FromRes) :
    SearchOpts → List Path → Option (List Dir)
  | _, [] => some []
  | cfg, p :: ps =>
    match f cfg p with
    | .aborted => none
    | .excluded => dirFromChildren f cfg ps
    | .node t => (dirFromChildren f cfg ps).map (t :: ·)

/-- The directory-expansion branch (`src/lib.rs:163`): list the entries,
apply the `dirs_only` filter, recurse with the composed ignore rules and the
decremented depth, then build the `Directory` node. -/
def expandDir (fs : FSys) (f : SearchOpts → Path → FromRes)
    (cfg : SearchOpts) (obj : Path) (d : Option Nat) : FromRes :=
  match fs.listDir obj with
  | none => .aborted
  | some names =>
    match dirsOnlyFilter fs cfg.dirs_only (names.map fun nm => obj ++ [nm]) with
    | none => .aborted
    | some paths =>
      match dirFromChildren f (childCfg fs cfg obj d) paths with
      | none => .aborted
      | some cs =>
        match fs.meta obj with
        | none => .aborted
        | some m => .node (.mk obj cs .dir m.readonly)

/-- The pipeline of `Dir::from` after the hidden and exclusion tests:
symlink classification, depth arithmetic, then one of the three branches. -/
def dirFromRest (fs : FSys) (f : SearchOpts → Path → FromRes)
    (cfg : SearchOpts) (obj : Path) : FromRes :=
  let linkC : Option Bool := (fs.readLink obj).map fun _ => fs.linkInside obj
  let shouldFollow := cfg.follow_symlinks && (!cfg.stay_on_fs || linkC == some true)
  let rd := depthStep cfg.max_depth
  if pIsDir fs obj && rd.1 then
    if shouldFollow || linkC == none then expandDir fs f cfg obj rd.2
    else linkNode fs obj
  else leafNode fs cfg obj

/-- `Dir::from` (`src/lib.rs:116`), fuel-indexed.  `aborted` is a panic (or
exhausted fuel); `excluded` is `None`; `node` is `Some`. -/
def dirFrom (fs : FSys) : Nat → SearchOpts → Path → FromRes
  | 0, _, _ => .aborted
  | n + 1, cfg, obj =>
    match hiddenStep cfg obj with
    | none => .aborted
    | some true => .excluded
    | some false =>
      if excludedBy cfg (pathChars obj) then .excluded
      else dirFromRest fs (fun cfg2 p => dirFrom fs n cfg2 p) cfg obj

/-! ## Tree mutators -/

mutual

/-- `Dir::has_nested_children` (`src/lib.rs:287`): a non-directory always
counts as content; a directory counts iff it is non-empty and some child
recursively counts. -/
def hasNestedChildren : Dir → Bool
  | .mk _ cs ft _ =>
    match ft with
    | .dir => !cs.isEmpty && anyNested cs
    | _ => true

/-- `contents.iter().map(has_nested_children).any(|x| x)`. -/
def anyNested : List Dir → Bool
  | [] => false
  | c :: cs => hasNestedChildren c || anyNested cs

end

theorem sizeOf_filter_le (p : Dir → Bool) (l : List Dir) :
    sizeOf (l.filter p) ≤ sizeOf l := by
  induction l with
  | nil => simp
  | cons a l ih =>
    rw [List.filter_cons]
    split <;> simp +arith <;> omega

mutual

/-- `Dir::prune` (`src/lib.rs:300`): filter the children by
`has_nested_children`, then prune each survivor. -/
def prune : Dir → Dir
  | .mk p cs ft ro => .mk p (pruneList (cs.filter hasNestedChildren)) ft ro
termination_by t => sizeOf t
decreasing_by
  refine Nat.lt_of_le_of_lt (sizeOf_filter_le hasNestedChildren _) ?_
  simp +arith

/-- `contents.iter_mut().for_each(Self::prune)`. -/
def pruneList : List Dir → List Dir
  | [] => []
  | c :: cs => prune c :: pruneList cs
termination_by l => sizeOf l
decreasing_by
  · simp +arith
  · simp +arith

end

/-- A strict path comparison for `sort_unstable_by_key(path)`: lexicographic on
components, each compared as a character string by code point (Rust's derived
`Ord` on `PathBuf`, restricted to well-formed component lists). -/
def strLt : Str → Str → Bool
  | [], [] => false
  | [], _ :: _ => true
  | _ :: _, [] => false
  | a :: as_, b :: bs => if a = b then strLt as_ bs else decide (a.toNat < b.toNat)

/-- Lexicographic order on paths, component-wise via `strLt`. -/
def pathLt : Path → Path → Bool
  | [], [] => false
  | [], _ :: _ => true
  | _ :: _, [] => false
  | a :: as_, b :: bs => if a = b then pathLt as_ bs else strLt a b

/-- Insert a node into a path-sorted list. -/
def insSorted (x : Dir) : List Dir → List Dir
  | [] => [x]
  | y :: ys => if pathLt x.path y.path then x :: y :: ys else y :: insSorted x ys

/-- Sort a child list by path (models `sort_unstable_by_key`; ordering details
beyond being a permutation are not used by any claim). -/
def sortByPath : List Dir → List Dir
  | [] => []
  | x :: xs => insSorted x (sortByPath xs)

theorem mem_insSorted {x y : Dir} : ∀ {l : List Dir}, y ∈ insSorted x l → y = x ∨ y ∈ l
  | [], h => by
    simp only [insSorted] at h
    exact .inl (List.mem_singleton.mp h)
  | a :: l, h => by
    simp only [insSorted] at h
    by_cases hc : pathLt x.path a.path = true
    · rw [if_pos hc] at h
      rcases List.mem_cons.mp h with h1 | h1
      · exact .inl h1
      · exact .inr h1
    · rw [if_neg hc] at h
      rcases List.mem_cons.mp h with h1 | h1
      · exact .inr (by simp [h1])
      · rcases mem_insSorted h1 with h2 | h2
        · exact .inl h2
        · exact .inr (List.mem_cons_of_mem _ h2)

theorem mem_sortByPath {y : Dir} : ∀ {l : List Dir}, y ∈ sortByPath l → y ∈ l
  | [], h => by simp only [sortByPath] at h; exact h
  | a :: l, h => by
    simp only [sortByPath] at h
    rcases mem_insSorted h with h1 | h1
    · simp [h1]
    · exact List.mem_cons_of_mem _ (mem_sortByPath h1)

theorem sizeOf_insSorted (x : Dir) (l : List Dir) :
    sizeOf (insSorted x l) = 1 + sizeOf x + sizeOf l := by
  induction l with
  | nil => simp [insSorted]
  | cons a l ih =>
    simp only [insSorted]
    split <;> simp +arith [ih]

theorem sizeOf_sortByPath (l : List Dir) : sizeOf (sortByPath l) = sizeOf l := by
  induction l with
  | nil => simp [sortByPath]
  | cons a l ih => simp +arith [sortByPath, sizeOf_insSorted, ih]

mutual

/-- `Dir::sort_children` (`src/lib.rs:282`): sort the children by path, then
recursively sort each child. -/
def sortChildren : Dir → Dir
  | .mk p cs ft ro => .mk p (sortEach (sortByPath cs)) ft ro
termination_by t => sizeOf t
decreasing_by
  simp +arith [sizeOf_sortByPath]

/-- `contents.iter_mut().for_each(|c| c.sort_children())`. -/
def sortEach : List Dir → List Dir
  | [] => []
  | c :: cs => sortChildren c :: sortEach cs
termination_by l => sizeOf l
decreasing_by
  · simp +arith
  · simp +arith

end

/-! ## The structural children invariant -/

mutual

/-- Only `Directory` nodes may carry a non-empty children sequence, at every
node of the tree. -/
def childrenInv : Dir → Bool
  | .mk _ cs ft _ =>
    (match ft with
     | .dir => true
     | _ => cs.isEmpty) && childrenInvList cs

/-- `childrenInv` on every element of a list. -/
def childrenInvList : List Dir → Bool
  | [] => true
  | c :: cs => childrenInv c && childrenInvList cs

end

/-- Strong induction over `Dir` via the recursive children. -/
theorem Dir.strongInd {P : Dir → Prop}
    (h : ∀ p cs ft ro, (∀ c, c ∈ cs → P c) → P (.mk p cs ft ro)) :
    ∀ t, P t
  | .mk p cs ft ro => h p cs ft ro fun c _hc => Dir.strongInd h c
termination_by t => sizeOf t
decreasing_by
  have := List.sizeOf_lt_of_mem _hc
  simp +arith
  omega

/-! ## Mutator lemmas -/

theorem pruneList_eq_map : ∀ l : List Dir, pruneList l = l.map prune
  | [] => by simp [pruneList]
  | c :: cs => by simp [pruneList, pruneList_eq_map cs]

theorem sortEach_eq_map : ∀ l : List Dir, sortEach l = l.map sortChildren
  | [] => by simp [sortEach]
  | c :: cs => by simp [sortEach, sortEach_eq_map cs]

theorem anyNested_iff : ∀ l : List Dir,
    anyNested l = true ↔ ∃ c ∈ l, hasNestedChildren c = true
  | [] => by simp [anyNested]
  | c :: cs => by
    simp [anyNested, anyNested_iff cs]

theorem childrenInvList_iff : ∀ l : List Dir,
    childrenInvList l = true ↔ ∀ c ∈ l, childrenInv c = true
  | [] => by simp [childrenInvList]
  | c :: cs => by
    simp [childrenInvList, childrenInvList_iff cs]

/-- Pruning preserves the content predicate. -/
theorem hasNested_prune : ∀ t : Dir,
    hasNestedChildren t = true → hasNestedChildren (prune t) = true := by
  refine Dir.strongInd ?_
  intro p cs ft ro ih h
  cases ft with
  | dir =>
    simp only [hasNestedChildren, Bool.and_eq_true, Bool.not_eq_eq_eq_not,
      Bool.not_true] at h
    obtain ⟨c, hc, hcn⟩ := (anyNested_iff cs).mp h.2
    have hcf : c ∈ cs.filter hasNestedChildren := List.mem_filter.mpr ⟨hc, hcn⟩
    simp only [prune, pruneList_eq_map, hasNestedChildren, Bool.and_eq_true,
      Bool.not_eq_eq_eq_not, Bool.not_true]
    constructor
    · rcases hfe : cs.filter hasNestedChildren with _ | ⟨a, l⟩
      · rw [hfe] at hcf
        simp at hcf
      · simp [hfe]
    · refine (anyNested_iff _).mpr ⟨prune c, List.mem_map_of_mem prune hcf, ?_⟩
      exact ih c hc hcn
  | exe => simp [prune, hasNestedChildren]
  | file => simp [prune, hasNestedChildren]
  | link tgt => simp [prune, hasNestedChildren]

/-- Pruning twice is pruning once (used by the idempotence claim). -/
theorem prune_idem : ∀ t : Dir, prune (prune t) = prune t := by
  refine Dir.strongInd ?_
  intro p cs ft ro ih
  simp only [prune, pruneList_eq_map]
  have h1 : (((cs.filter hasNestedChildren).map prune).filter hasNestedChildren)
      = (cs.filter hasNestedChildren).map prune := by
    refine List.filter_eq_self.mpr ?_
    intro x hx
    obtain ⟨c, hc, rfl⟩ := List.mem_map.mp hx
    exact hasNested_prune c (List.mem_filter.mp hc).2
  rw [h1, List.map_map]
  congr 1
  refine List.map_congr_left ?_
  intro c hc
  exact ih c (List.mem_filter.mp hc).1

/-- Pruning preserves the children invariant. -/
theorem childrenInv_prune : ∀ t : Dir,
    childrenInv t = true → childrenInv (prune t) = true := by
  refine Dir.strongInd ?_
  intro p cs ft ro ih h
  simp only [childrenInv, Bool.and_eq_true] at h
  have hlist : ∀ c ∈ (cs.filter hasNestedChildren).map prune, childrenInv c = true := by
    intro x hx
    obtain ⟨c, hc, rfl⟩ := List.mem_map.mp hx
    have hcc := (List.mem_filter.mp hc).1
    exact ih c hcc ((childrenInvList_iff cs).mp h.2 c hcc)
  simp only [prune, pruneList_eq_map, childrenInv, Bool.and_eq_true]
  refine ⟨?_, (childrenInvList_iff _).mpr hlist⟩
  cases ft with
  | dir => simp
  | exe =>
    have : cs = [] := by simpa using h.1
    subst this
    simp
  | file =>
    have : cs = [] := by simpa using h.1
    subst this
    simp
  | link tgt =>
    have : cs = [] := by simpa using h.1
    subst this
    simp

/-- Sorting preserves the children invariant. -/
theorem childrenInv_sortChildren : ∀ t : Dir,
    childrenInv t = true → childrenInv (sortChildren t) = true := by
  refine Dir.strongInd ?_
  intro p cs ft ro ih h
  simp only [childrenInv, Bool.and_eq_true] at h
  have hlist : ∀ c ∈ (sortByPath cs).map sortChildren, childrenInv c = true := by
    intro x hx
    obtain ⟨c, hc, rfl⟩ := List.mem_map.mp hx
    have hcc := mem_sortByPath hc
    exact ih c hcc ((childrenInvList_iff cs).mp h.2 c hcc)
  simp only [sortChildren, sortEach_eq_map, childrenInv, Bool.and_eq_true]
  refine ⟨?_, (childrenInvList_iff _).mpr hlist⟩
  cases ft with
  | dir => simp
  | exe =>
    have : cs = [] := by simpa using h.1
    subst this
    simp [sortByPath]
  | file =>
    have : cs = [] := by simpa using h.1
    subst this
    simp [sortByPath]
  | link tgt =>
    have : cs = [] := by simpa using h.1
    subst this
    simp [sortByPath]

/-! ## The children invariant under construction -/

theorem linkNode_inv (fs : FSys) (obj : Path) (t : Dir)
    (h : linkNode fs obj = .node t) : childrenInv t = true := by
  unfold linkNode at h
  split at h
  · injection h with h2
    subst h2
    simp [childrenInv, childrenInvList]
  · simp at h

theorem leafNode_inv (fs : FSys) (cfg : SearchOpts) (obj : Path) (t : Dir)
    (h : leafNode fs cfg obj = .node t) : childrenInv t = true := by
  unfold leafNode at h
  split at h
  · rcases hex : isExecF fs obj with _ | ft
    · rw [hex] at h
      simp at h
    · rw [hex] at h
      rcases hm : fs.meta obj with _ | m
      · rw [hm] at h
        simp at h
      · rw [hm] at h
        injection h with h2
        subst h2
        cases ft <;> simp [childrenInv, childrenInvList]
  · simp at h

theorem dirFromChildren_inv (f : SearchOpts → Path → FromRes)
    (hf : ∀ cfg p t, f cfg p = .node t → childrenInv t = true) :
    ∀ cfg ps l, dirFromChildren f cfg ps = some l → childrenInvList l = true := by
  intro cfg ps
  induction ps with
  | nil =>
    intro l h
    simp only [dirFromChildren, Option.some_inj] at h
    subst h
    simp [childrenInvList]
  | cons p ps ihps =>
    intro l h
    simp only [dirFromChildren] at h
    split at h
    · simp at h
    · exact ihps l h
    · rename_i t ht
      rcases hrec : dirFromChildren f cfg ps with _ | l2
      · rw [hrec] at h
        simp at h
      · rw [hrec] at h
        simp only [Option.map_some', Option.some_inj] at h
        subst h
        simp only [childrenInvList, Bool.and_eq_true]
        exact ⟨hf cfg p t ht, ihps l2 hrec⟩

theorem expandDir_inv (fs : FSys) (f : SearchOpts → Path → FromRes)
    (cfg : SearchOpts) (obj : Path) (d : Option Nat) (t : Dir)
    (hf : ∀ cfg2 p t2, f cfg2 p = .node t2 → childrenInv t2 = true)
    (h : expandDir fs f cfg obj d = .node t) : childrenInv t = true := by
  unfold expandDir at h
  rcases hl : fs.listDir obj with _ | names
  · rw [hl] at h
    simp at h
  · rw [hl] at h
    dsimp only at h
    rcases hfil : dirsOnlyFilter fs cfg.dirs_only (names.map fun nm => obj ++ [nm]) with _ | paths
    · rw [hfil] at h
      simp at h
    · rw [hfil] at h
      dsimp only at h
      rcases hcs : dirFromChildren f (childCfg fs cfg obj d) paths with _ | cs
      · rw [hcs] at h
        simp at h
      · rw [hcs] at h
        dsimp only at h
        rcases hm : fs.meta obj with _ | m
        · rw [hm] at h
          simp at h
        · rw [hm] at h
          dsimp only at h
          injection h with h2
          subst h2
          simp only [childrenInv, Bool.true_and]
          exact dirFromChildren_inv f hf _ _ _ hcs

theorem dirFromRest_inv (fs : FSys) (f : SearchOpts → Path → FromRes)
    (cfg : SearchOpts) (obj : Path) (t : Dir)
    (hf : ∀ cfg2 p t2, f cfg2 p = .node t2 → childrenInv t2 = true)
    (h : dirFromRest fs f cfg obj = .node t) : childrenInv t = true := by
  simp only [dirFromRest] at h
  split at h
  · split at h
    · exact expandDir_inv fs f cfg obj _ t hf h
    · exact linkNode_inv fs obj t h
  · exact leafNode_inv fs cfg obj t h

/-- Every node `Dir::from` produces satisfies the children invariant, at
every fuel level. -/
theorem dirFrom_inv : ∀ (n : Nat) (fs : FSys) (cfg : SearchOpts) (obj : Path) (t : Dir),
    dirFrom fs n cfg obj = .node t → childrenInv t = true := by
  intro n
  induction n with
  | zero =>
    intro fs cfg obj t h
    simp [dirFrom] at h
  | succ n ih =>
    intro fs cfg obj t h
    simp only [dirFrom] at h
    split at h
    · simp at h
    · simp at h
    · split at h
      · simp at h
      · exact dirFromRest_inv fs _ cfg obj t (fun cfg2 p t2 => ih fs cfg2 p t2) h

/-! ## Matching lemmas -/

theorem charEq_refl (cs : Bool) (c : Char) : charEq cs c c = true := by
  unfold charEq
  split <;> simp

/-- A trailing `*` matches any remaining characters. -/
theorem patMatch_anySeq_nil (cs : Bool) : ∀ ds : Str, patMatch cs [Tok.anySeq] ds = true
  | [] => by simp [patMatch, patMatchAux, patNil]
  | d :: ds => by
    simp only [patMatch, patMatchAux, patStep]
    simpa [patMatch] using patMatch_anySeq_nil cs ds

/-- Consuming a shared literal prefix does not change the match result. -/
theorem patMatch_lit_append (cs : Bool) :
    ∀ (s : Str) (ts : Pat) (ds : Str),
      patMatch cs (s.map Tok.lit ++ ts) (s ++ ds) = patMatch cs ts ds
  | [], _, _ => by simp
  | c :: s, ts, ds => by
    simp only [List.map_cons, List.cons_append, patMatch, patMatchAux, patStep,
      charEq_refl, Bool.true_and]
    exact patMatch_lit_append cs s ts ds

theorem toNat_ofNat_valid (n : Nat) (h : n.isValidChar) : (Char.ofNat n).toNat = n := by
  simp [Char.ofNat, dif_pos h, Char.ofNatAux, Char.toNat, UInt32.toNat]

theorem toLower_eq_dot {d : Char} (h : d.toLower = '.') : d = '.' := by
  by_cases hn : d.toNat ≥ 65 ∧ d.toNat ≤ 90
  · exfalso
    have he : Char.ofNat (d.toNat + 32) = '.' := by
      simpa [Char.toLower, hn] using h
    have hv : (d.toNat + 32).isValidChar := Or.inl (by omega)
    have h2 := congrArg Char.toNat he
    rw [toNat_ofNat_valid _ hv] at h2
    have hd : ('.' : Char).toNat = 46 := by decide
    rw [hd] at h2
    omega
  · simpa [Char.toLower, hn] using h

/-- `chars_eq` against the literal `.` holds exactly for `.` itself. -/
theorem charEq_dot (cs : Bool) (d : Char) : charEq cs '.' d = true ↔ d = '.' := by
  unfold charEq
  split
  · constructor
    · intro h
      have h2 : ('.' : Char).toLower = d.toLower := by
        exact beq_iff_eq.mp h
      have h3 : ('.' : Char).toLower = '.' := by decide
      exact (toLower_eq_dot (h3 ▸ h2.symm)).symm ▸ rfl
    · intro h
      subst h
      simp
  · constructor
    · intro h
      exact (beq_iff_eq.mp h).symm
    · intro h
      subst h
      simp

/-- The pattern `.*` matches a string exactly when it starts with `.`. -/
theorem patMatch_dotStar (cs : Bool) (ds : Str) :
    patMatch cs [Tok.lit '.', Tok.anySeq] ds = strStarts ds '.' := by
  cases ds with
  | nil => simp [patMatch, patMatchAux, patNil, strStarts]
  | cons d ds =>
    have h1 : patMatch cs [Tok.lit '.', Tok.anySeq] (d :: ds)
        = (charEq cs '.' d && patMatch cs [Tok.anySeq] ds) := by
      simp [patMatch, patMatchAux, patStep]
    rw [h1, patMatch_anySeq_nil, Bool.and_true]
    simp only [strStarts]
    rcases hc : charEq cs '.' d with hf | ht
    · have : ¬d = '.' := fun he => by
        rw [(charEq_dot cs d).mpr he] at hc
        simp at hc
      simp [this]
    · have : d = '.' := (charEq_dot cs d).mp hc
      simp [this]

/-- Characters the glob compiler treats as plain literals. -/
def litChar (c : Char) : Bool := !(c == '?' || c == '*' || c == '[')

theorem compilePat_cons_lit {c : Char} (h : litChar c = true) (rest : Str) :
    compilePat (c :: rest) = (compilePat rest).map (Tok.lit c :: ·) := by
  simp only [litChar, Bool.not_eq_eq_eq_not, Bool.not_true, Bool.or_eq_false_iff,
    beq_eq_false_iff_ne, ne_eq] at h
  simp [compilePat, h.1.1, h.1.2, h.2]

theorem compilePat_lit_append :
    ∀ (s : Str), s.all litChar = true →
      ∀ t, compilePat (s ++ t) = (compilePat t).map (fun p => s.map Tok.lit ++ p)
  | [], _, t => by
    simp only [List.nil_append, List.map_nil]
    cases h : compilePat t <;> simp
  | c :: s, h, t => by
    simp only [List.all_cons, Bool.and_eq_true] at h
    rw [List.cons_append, compilePat_cons_lit h.1, compilePat_lit_append s h.2 t]
    cases compilePat t <;> simp

theorem pathChars_concat (dn : Path) (last : Str) (h : dn ≠ []) :
    pathChars (dn ++ [last]) = pathChars dn ++ '/' :: last := by
  induction dn with
  | nil => exact absurd rfl h
  | cons c rest ih =>
    cases rest with
    | nil => simp [pathChars]
    | cons c2 rest2 =>
      have h2 : (c2 :: rest2 : Path) ≠ [] := by simp
      calc pathChars ((c :: c2 :: rest2) ++ [last])
          = c ++ '/' :: pathChars ((c2 :: rest2) ++ [last]) := by
            simp [pathChars]
        _ = c ++ '/' :: (pathChars (c2 :: rest2) ++ '/' :: last) := by
            rw [ih h2]
        _ = pathChars (c :: c2 :: rest2) ++ '/' :: last := by
            simp [pathChars]

/-! ## Pipeline lemmas -/

theorem any_false_pat (l : List Pat) : (l.any fun _ => false) = false := by
  induction l with
  | nil => simp
  | cons a l ih => simp [ih]

/-- The exclusion loop in closed form: some pattern of the union matches and
no whitelist pattern does. -/
theorem excludedBy_eq (cfg : SearchOpts) (s : Str) :
    excludedBy cfg s =
      ((cfg.negative_patterns ++ cfg.vcs_blacklist_patterns).any
          (fun p => patMatch (!cfg.case_insensitive_match) p s)
        && !(cfg.vcs_whitelist_patterns.any
          (fun w => patMatch (!cfg.case_insensitive_match) w s))) := by
  unfold excludedBy
  rcases hw : cfg.vcs_whitelist_patterns.any
      (fun w => patMatch (!cfg.case_insensitive_match) w s) with hf | ht
  · simp
  · simp [any_false_pat]

/-- `Dir::from` with positive fuel, once the hidden test and the exclusion
test both pass, is the remaining pipeline. -/
theorem dirFrom_succ_eq (fs : FSys) (n : Nat) (cfg : SearchOpts) (obj : Path)
    (hh : hiddenStep cfg obj = some false)
    (he : excludedBy cfg (pathChars obj) = false) :
    dirFrom fs (n + 1) cfg obj = dirFromRest fs (fun cfg2 p => dirFrom fs n cfg2 p) cfg obj := by
  simp [dirFrom, hh, he]

/-- A hidden-excluded path is excluded outright. -/
theorem dirFrom_succ_hidden (fs : FSys) (n : Nat) (cfg : SearchOpts) (obj : Path)
    (hh : hiddenStep cfg obj = some true) :
    dirFrom fs (n + 1) cfg obj = .excluded := by
  simp [dirFrom, hh]

/-- An exclusion-test hit (after the hidden test passes) is excluded. -/
theorem dirFrom_succ_excl (fs : FSys) (n : Nat) (cfg : SearchOpts) (obj : Path)
    (hh : hiddenStep cfg obj = some false)
    (he : excludedBy cfg (pathChars obj) = true) :
    dirFrom fs (n + 1) cfg obj = .excluded := by
  simp [dirFrom, hh, he]

/-- With `show_hidden` set, the hidden test never fires. -/
theorem hiddenStep_show (cfg : SearchOpts) (obj : Path)
    (h : cfg.show_hidden = true) : hiddenStep cfg obj = some false := by
  simp [hiddenStep, h]

theorem depthStep_fst (d : Option Nat) (h : d ≠ some 0) : (depthStep d).1 = true := by
  match d with
  | none => rfl
  | some 0 => exact absurd rfl h
  | some (k + 1) => rfl

/-- When the entry is not a directory, or the depth budget is `Some(0)`, the
pipeline lands in the leaf branch. -/
theorem dirFromRest_leaf (fs : FSys) (f : SearchOpts → Path → FromRes)
    (cfg : SearchOpts) (obj : Path)
    (h : (pIsDir fs obj && (depthStep cfg.max_depth).1) = false) :
    dirFromRest fs f cfg obj = leafNode fs cfg obj := by
  simp only [dirFromRest, h]
  rfl

/-- A symlink to a directory that is not followed lands in the link branch. -/
theorem dirFromRest_link (fs : FSys) (f : SearchOpts → Path → FromRes)
    (cfg : SearchOpts) (obj : Path) (tgt : Str)
    (hrl : fs.readLink obj = some tgt)
    (hd : pIsDir fs obj = true)
    (hd1 : (depthStep cfg.max_depth).1 = true)
    (hnf : cfg.follow_symlinks = false
      ∨ (cfg.stay_on_fs = true ∧ fs.linkInside obj = false)) :
    dirFromRest fs f cfg obj = linkNode fs obj := by
  have hsf : (cfg.follow_symlinks
      && (!cfg.stay_on_fs
        || ((fs.readLink obj).map fun _ => fs.linkInside obj) == some true)) = false := by
    rcases hnf with h1 | ⟨h2, h3⟩
    · simp [h1]
    · simp [h2, hrl, h3]
  have hlc : (((fs.readLink obj).map fun _ => fs.linkInside obj) == none) = false := by
    simp [hrl]
  simp only [dirFromRest, hd, hd1, hsf, hlc, Bool.and_self, if_true, Bool.or_self, if_false]
  simp

/-- The leaf branch on a directory entry (whose metadata is readable): a
`Directory` node with no children if the positive patterns admit it,
exclusion otherwise. -/
theorem leafNode_on_dir (fs : FSys) (cfg : SearchOpts) (obj : Path) (m : Meta)
    (hm : fs.meta obj = some m) (hd : m.isDir = true) :
    leafNode fs cfg obj =
      if cfg.positive_patterns.isEmpty
          || cfg.positive_patterns.any fun p =>
               patMatch (!cfg.case_insensitive_match) p (pathChars obj) then
        .node (.mk obj [] .dir m.readonly)
      else .excluded := by
  have hpd : pIsDir fs obj = true := by simp [pIsDir, hm, hd]
  unfold leafNode isExecF
  rw [hpd, hm]
  simp

/-- The leaf branch on a non-directory entry (whose metadata is readable):
classified by the low mode bit if the positive patterns admit it, exclusion
otherwise. -/
theorem leafNode_on_file (fs : FSys) (cfg : SearchOpts) (obj : Path) (m : Meta)
    (hm : fs.meta obj = some m) (hd : m.isDir = false) :
    leafNode fs cfg obj =
      if cfg.positive_patterns.isEmpty
          || cfg.positive_patterns.any fun p =>
               patMatch (!cfg.case_insensitive_match) p (pathChars obj) then
        .node (.mk obj [] (if m.mode % 2 == 1 then .exe else .file) m.readonly)
      else .excluded := by
  have hpd : pIsDir fs obj = false := by simp [pIsDir, hm, hd]
  unfold leafNode isExecF
  rw [hpd, hm]
  simp

/-- The leaf branch never panics into exclusion when the positive pattern
list is empty. -/
theorem leafNode_ne_excluded (fs : FSys) (cfg : SearchOpts) (obj : Path)
    (hp : cfg.positive_patterns = []) : leafNode fs cfg obj ≠ .excluded := by
  unfold leafNode
  rw [hp]
  simp only [List.isEmpty_nil, Bool.true_or, if_true]
  rcases isExecF fs obj with _ | ft
  · simp
  · rcases fs.meta obj with _ | m <;> simp

theorem linkNode_ne_excluded (fs : FSys) (obj : Path) : linkNode fs obj ≠ .excluded := by
  unfold linkNode
  rcases fs.readLink obj with _ | tgt
  · simp
  · rcases fs.meta obj with _ | m <;> simp

theorem expandDir_ne_excluded (fs : FSys) (f : SearchOpts → Path → FromRes)
    (cfg : SearchOpts) (obj : Path) (d : Option Nat) :
    expandDir fs f cfg obj d ≠ .excluded := by
  unfold expandDir
  rcases fs.listDir obj with _ | names
  · simp
  · dsimp only
    rcases dirsOnlyFilter fs cfg.dirs_only (names.map fun nm => obj ++ [nm]) with _ | paths
    · simp
    · dsimp only
      rcases dirFromChildren f (childCfg fs cfg obj d) paths with _ | cs
      · simp
      · dsimp only
        rcases fs.meta obj with _ | m <;> simp

/-- Once past the hidden and exclusion tests with no positive patterns, the
pipeline cannot return `None`. -/
theorem dirFromRest_ne_excluded (fs : FSys) (f : SearchOpts → Path → FromRes)
    (cfg : SearchOpts) (obj : Path)
    (hp : cfg.positive_patterns = []) :
    dirFromRest fs f cfg obj ≠ .excluded := by
  simp only [dirFromRest]
  split
  · split
    · exact expandDir_ne_excluded fs f cfg obj _
    · exact linkNode_ne_excluded fs obj
  · exact leafNode_ne_excluded fs cfg obj hp

/-- The hidden-file test computes exactly "the final path component starts
with `.`", for any path whose directory part is glob-literal and whose final
component is a real file name. -/
theorem hiddenStep_eq (cfg : SearchOpts) (dn : Path) (last : Str)
    (hlit : (pathChars dn).all litChar = true)
    (hne1 : last ≠ sDot) (hne2 : last ≠ sDotDot)
    (hsh : cfg.show_hidden = false) :
    hiddenStep cfg (dn ++ [last]) = some (strStarts last '.') := by
  have hname : fileName (dn ++ [last]) = some last := by
    simp [fileName, List.getLast?_concat, hne1, hne2]
  have hset : setFileName (dn ++ [last]) sDotStar = dn ++ [sDotStar] := by
    simp [setFileName, hname, List.dropLast_concat]
  have hds : sDotStar = ['.', '*'] := by decide
  have hcompDS : compilePat ['.', '*'] = some [Tok.lit '.', Tok.anySeq] := by decide
  unfold hiddenStep
  rw [hsh]
  simp only [Bool.false_eq_true, if_false, hset]
  cases hdn : dn with
  | nil =>
    simp only [List.nil_append, pathChars, hds, hcompDS]
    simp [patMatch_dotStar]
  | cons c rest =>
    have hne : dn ≠ [] := by rw [hdn]; simp
    rw [← hdn]
    rw [pathChars_concat dn sDotStar hne, pathChars_concat dn last hne, hds]
    have hsl : (pathChars dn ++ ['/']).all litChar = true := by
      simp only [List.all_append, Bool.and_eq_true]
      exact ⟨hlit, by decide⟩
    have hsplit : pathChars dn ++ '/' :: ['.', '*'] = (pathChars dn ++ ['/']) ++ ['.', '*'] := by
      simp
    rw [hsplit, compilePat_lit_append _ hsl, hcompDS]
    have hsplit2 : pathChars dn ++ '/' :: last = (pathChars dn ++ ['/']) ++ last := by
      simp
    rw [hsplit2]
    simp only [Option.map_some', Option.some_inj]
    rw [patMatch_lit_append, patMatch_dotStar]

/-! ## Concrete names, patterns and filesystems used by witnesses -/

def nmR : Str := "r".data

def nmA : Str := "a".data

def nmD : Str := "d".data

def nmF : Str := "f".data

def nmS : Str := "s".data

def nmT : Str := "t".data

def nmGit : Str := ".git".data

def nmALog : Str := "a.log".data

def nmKeepLog : Str := "keep.log".data

def lineStar : Str := "*.log".data

def lineKeep : Str := "!keep.log".data

def lineHash : Str := "# comment".data

/-- The compiled pattern `*.txt`. -/
def patTxt : Pat := (compilePat ("*.txt".data)).getD []

/-- The compiled pattern `d` (a literal). -/
def patD : Pat := [Tok.lit 'd']

/-- A filesystem on which every syscall fails: adequate for exercising the
pure front of the pipeline. -/
def fsEmpty : FSys where
  meta := fun _ => none
  entryMeta := fun _ => none
  listDir := fun _ => none
  readLink := fun _ => none
  linkInside := fun _ => false
  gitignore := fun _ => none

/-- A directory `r` containing an entry `a` whose metadata is unreadable. -/
def fsC1 : FSys where
  meta := fun p => if p = [nmR] then some ⟨true, 493, false⟩ else none
  entryMeta := fun _ => none
  listDir := fun p => if p = [nmR] then some [nmA] else none
  readLink := fun _ => none
  linkInside := fun _ => false
  gitignore := fun _ => none

/-- A single directory `d` (its contents are never listed at depth 0). -/
def fsC2 : FSys where
  meta := fun p => if p = [nmD] then some ⟨true, 493, false⟩ else none
  entryMeta := fun _ => none
  listDir := fun _ => none
  readLink := fun _ => none
  linkInside := fun _ => false
  gitignore := fun _ => none

/-- A symlink `s` whose target `t` is a regular file (metadata follows the
link, so `is_dir` is false and the mode is the target's). -/
def fsC4file : FSys where
  meta := fun p => if p = [nmS] then some ⟨false, 420, false⟩ else none
  entryMeta := fun _ => none
  listDir := fun _ => none
  readLink := fun p => if p = [nmS] then some nmT else none
  linkInside := fun _ => false
  gitignore := fun _ => none

/-- A symlink `s` whose target `t` is a directory. -/
def fsC4dir : FSys where
  meta := fun p => if p = [nmS] then some ⟨true, 493, false⟩ else none
  entryMeta := fun _ => none
  listDir := fun _ => none
  readLink := fun p => if p = [nmS] then some nmT else none
  linkInside := fun _ => false
  gitignore := fun _ => none

/-- The ignore-file scenario: `d` holds `a.log` and `keep.log`, and
`d/.gitignore` reads `*.log` then `!keep.log`. -/
def fsLog : FSys where
  meta := fun p =>
    if p = [nmD] then some ⟨true, 493, false⟩
    else if p = [nmD, nmALog] then some ⟨false, 420, false⟩
    else if p = [nmD, nmKeepLog] then some ⟨false, 420, false⟩
    else none
  entryMeta := fun _ => none
  listDir := fun p => if p = [nmD] then some [nmALog, nmKeepLog] else none
  readLink := fun _ => none
  linkInside := fun _ => false
  gitignore := fun p => if p = [nmD] then some [lineStar, lineKeep] else none

/-! ## The claims -/

/-- C1 counterexample: a scan of `r` whose entry `a` has unreadable metadata
panics (aborts the whole walk); the entry is not skipped, contradicting the
claim that such a walk never aborts. -/
theorem c1_counterexample : dirFrom fsC1 2 {} [nmR] = .aborted := by rfl

/-- C1 (amended): a per-entry I/O failure is fatal, not skipped: once an
entry passes the hidden and exclusion tests, unreadable metadata on a leaf
(with no positive patterns restricting it), or an unreadable directory
listing, makes `Dir::from` panic and abort the whole walk. -/
theorem c1_theorem :
    (∀ (fs : FSys) (n : Nat) (cfg : SearchOpts) (obj : Path),
      hiddenStep cfg obj = some false →
      excludedBy cfg (pathChars obj) = false →
      cfg.positive_patterns = [] →
      fs.meta obj = none →
      dirFrom fs (n + 1) cfg obj = .aborted)
    ∧ (∀ (fs : FSys) (n : Nat) (cfg : SearchOpts) (obj : Path) (m : Meta),
      hiddenStep cfg obj = some false →
      excludedBy cfg (pathChars obj) = false →
      fs.meta obj = some m → m.isDir = true →
      fs.readLink obj = none →
      cfg.max_depth ≠ some 0 →
      fs.listDir obj = none →
      dirFrom fs (n + 1) cfg obj = .aborted) := by
  constructor
  · intro fs n cfg obj hh he hp hm
    rw [dirFrom_succ_eq fs n cfg obj hh he]
    have hpd : pIsDir fs obj = false := by simp [pIsDir, hm]
    rw [dirFromRest_leaf _ _ _ _ (by simp [hpd])]
    unfold leafNode isExecF
    rw [hp, hpd, hm]
    simp
  · intro fs n cfg obj m hh he hm hd hrl hd0 hl
    rw [dirFrom_succ_eq fs n cfg obj hh he]
    have hpd : pIsDir fs obj = true := by simp [pIsDir, hm, hd]
    have hd1 := depthStep_fst cfg.max_depth hd0
    simp only [dirFromRest, hpd, hd1, Bool.and_self, if_true, hrl, Option.map_none',
      beq_self_eq_true, Bool.or_true]
    unfold expandDir
    rw [hl]

/-- C1 witness: the leaf case of the amended claim at a concrete input. -/
theorem c1_witness : dirFrom fsEmpty 1 {} [nmF] = .aborted :=
  c1_theorem.1 fsEmpty 0 {} [nmF] (by decide) (by decide) rfl rfl

/-- C2 counterexample: with `max_depth = Some(0)` and positive patterns
`*.txt`, the directory `d` (which passes the hidden and exclusion tests) is
dropped entirely, not kept as an empty Directory node. -/
theorem c2_counterexample :
    dirFrom fsC2 1 { max_depth := some 0, positive_patterns := [patTxt] } [nmD]
      = .excluded := by rfl

/-- C2 (amended): a depth-exhausted directory is handled by the leaf branch:
it becomes a `Directory` node with empty children only if the positive
patterns admit it (empty list or a match); otherwise it is dropped. -/
theorem c2_theorem :
    ∀ (fs : FSys) (n : Nat) (cfg : SearchOpts) (obj : Path) (m : Meta),
      hiddenStep cfg obj = some false →
      excludedBy cfg (pathChars obj) = false →
      cfg.max_depth = some 0 →
      fs.meta obj = some m → m.isDir = true →
      dirFrom fs (n + 1) cfg obj =
        if cfg.positive_patterns.isEmpty
            || cfg.positive_patterns.any fun p =>
                 patMatch (!cfg.case_insensitive_match) p (pathChars obj) then
          .node (.mk obj [] .dir m.readonly)
        else .excluded := by
  intro fs n cfg obj m hh he hd0 hm hd
  rw [dirFrom_succ_eq fs n cfg obj hh he]
  rw [dirFromRest_leaf _ _ _ _ (by rw [hd0]; simp [depthStep])]
  exact leafNode_on_dir fs cfg obj m hm hd

/-- C2 witness: with no positive patterns, the depth-exhausted directory is
kept as an empty Directory node. -/
theorem c2_witness :
    dirFrom fsC2 1 { max_depth := some 0 } [nmD] = .node (.mk [nmD] [] .dir false) := by
  rw [c2_theorem fsC2 0 { max_depth := some 0 } [nmD] ⟨true, 493, false⟩
    (by decide) (by decide) rfl rfl rfl]
  rfl

/-- C3 counterexample: the root path is not exempt from the hidden-file
filter: scanning the root `.git` with `show_hidden = false` returns `None`. -/
theorem c3_counterexample : dirFrom fsEmpty 1 {} [nmGit] = .excluded := by rfl

/-- C3 (amended): for every candidate path with a glob-literal directory part
and a real file name (the root included), if the final component starts with
`.` the entry is excluded when `show_hidden` is false; otherwise, and always
when `show_hidden` is true, the hidden filter passes the entry on to the rest
of the pipeline unchanged. -/
theorem c3_theorem :
    ∀ (fs : FSys) (n : Nat) (cfg : SearchOpts) (dn : Path) (last : Str),
      (pathChars dn).all litChar = true →
      last ≠ sDot → last ≠ sDotDot →
      ((cfg.show_hidden = false → strStarts last '.' = true →
          dirFrom fs (n + 1) cfg (dn ++ [last]) = .excluded)
        ∧ (cfg.show_hidden = false → strStarts last '.' = false →
          dirFrom fs (n + 1) cfg (dn ++ [last]) =
            if excludedBy cfg (pathChars (dn ++ [last])) then .excluded
            else dirFromRest fs (fun cfg2 p => dirFrom fs n cfg2 p) cfg (dn ++ [last]))
        ∧ (cfg.show_hidden = true →
          dirFrom fs (n + 1) cfg (dn ++ [last]) =
            if excludedBy cfg (pathChars (dn ++ [last])) then .excluded
            else dirFromRest fs (fun cfg2 p => dirFrom fs n cfg2 p) cfg (dn ++ [last]))) := by
  intro fs n cfg dn last hlit hne1 hne2
  refine ⟨?_, ?_, ?_⟩
  · intro hsh hst
    have hh := hiddenStep_eq cfg dn last hlit hne1 hne2 hsh
    rw [hst] at hh
    exact dirFrom_succ_hidden fs n cfg (dn ++ [last]) hh
  · intro hsh hst
    have hh := hiddenStep_eq cfg dn last hlit hne1 hne2 hsh
    rw [hst] at hh
    simp [dirFrom, hh]
  · intro hsh
    simp [dirFrom, hiddenStep_show cfg (dn ++ [last]) hsh]

/-- C3 witness: a hidden entry below a literal directory is excluded. -/
theorem c3_witness : dirFrom fsEmpty 1 {} [nmD, nmGit] = .excluded :=
  (c3_theorem fsEmpty 0 {} [nmD] nmGit (by decide) (by decide) (by decide)).1 rfl (by decide)

/-- C4 counterexample: a non-followed symlink `s` to a regular file becomes a
`RegularFile` leaf (not a `SymbolicLink` node), and with positive patterns it
is subject to the leaf-admission filter. -/
theorem c4_counterexample :
    dirFrom fsC4file 1 {} [nmS] = .node (.mk [nmS] [] .file false)
    ∧ FType.file ≠ FType.link nmT
    ∧ dirFrom fsC4file 1 { positive_patterns := [patTxt] } [nmS] = .excluded := by
  refine ⟨by rfl, by decide, by rfl⟩

/-- C4 (amended): for a symlink entry that passes the hidden and exclusion
tests and is not followed: (1) if its target is a directory and depth budget
remains (`max_depth ≠ Some(0)`), it becomes a terminal `SymbolicLink` node
carrying the raw target, with no children and regardless of the positive
patterns; (2) if its target is a directory but `max_depth = Some(0)`, it is
handled by the leaf branch instead, becoming a `Directory` leaf subject to the
positive-pattern test; (3) if its target is a non-directory, it always falls
into the leaf branch: classified from the target's metadata (`Executable` iff
the mode is odd, else `RegularFile`) and subject to the positive-pattern
test. -/
theorem c4_theorem :
    (∀ (fs : FSys) (n : Nat) (cfg : SearchOpts) (obj : Path) (tgt : Str) (m : Meta),
      hiddenStep cfg obj = some false →
      excludedBy cfg (pathChars obj) = false →
      fs.readLink obj = some tgt →
      fs.meta obj = some m → m.isDir = true →
      cfg.max_depth ≠ some 0 →
      (cfg.follow_symlinks = false
        ∨ (cfg.stay_on_fs = true ∧ fs.linkInside obj = false)) →
      dirFrom fs (n + 1) cfg obj = .node (.mk obj [] (.link tgt) m.readonly))
    ∧ (∀ (fs : FSys) (n : Nat) (cfg : SearchOpts) (obj : Path) (tgt : Str) (m : Meta),
      hiddenStep cfg obj = some false →
      excludedBy cfg (pathChars obj) = false →
      fs.readLink obj = some tgt →
      fs.meta obj = some m → m.isDir = true →
      cfg.max_depth = some 0 →
      dirFrom fs (n + 1) cfg obj =
        if cfg.positive_patterns.isEmpty
            || cfg.positive_patterns.any fun p =>
                 patMatch (!cfg.case_insensitive_match) p (pathChars obj) then
          .node (.mk obj [] .dir m.readonly)
        else .excluded)
    ∧ (∀ (fs : FSys) (n : Nat) (cfg : SearchOpts) (obj : Path) (tgt : Str) (m : Meta),
      hiddenStep cfg obj = some false →
      excludedBy cfg (pathChars obj) = false →
      fs.readLink obj = some tgt →
      fs.meta obj = some m → m.isDir = false →
      dirFrom fs (n + 1) cfg obj =
        if cfg.positive_patterns.isEmpty
            || cfg.positive_patterns.any fun p =>
                 patMatch (!cfg.case_insensitive_match) p (pathChars obj) then
          .node (.mk obj [] (if m.mode % 2 == 1 then .exe else .file) m.readonly)
        else .excluded) := by
  refine ⟨?_, ?_, ?_⟩
  · intro fs n cfg obj tgt m hh he hrl hm hd hd0 hnf
    rw [dirFrom_succ_eq fs n cfg obj hh he]
    have hpd : pIsDir fs obj = true := by simp [pIsDir, hm, hd]
    rw [dirFromRest_link fs _ cfg obj tgt hrl hpd (depthStep_fst cfg.max_depth hd0) hnf]
    unfold linkNode
    rw [hrl, hm]
  · intro fs n cfg obj tgt m hh he hrl hm hd hd0
    rw [dirFrom_succ_eq fs n cfg obj hh he]
    rw [dirFromRest_leaf _ _ _ _ (by rw [hd0]; simp [depthStep])]
    exact leafNode_on_dir fs cfg obj m hm hd
  · intro fs n cfg obj tgt m hh he hrl hm hd
    rw [dirFrom_succ_eq fs n cfg obj hh he]
    have hpd : pIsDir fs obj = false := by simp [pIsDir, hm, hd]
    rw [dirFromRest_leaf _ _ _ _ (by simp [hpd])]
    exact leafNode_on_file fs cfg obj m hm hd

/-- C4 witness: all three cases at concrete inputs — the directory-target
link leaf (positive patterns present and ignored), the depth-exhausted
symlink-to-directory dropped by a non-matching positive pattern, and the
file-target symlink classified as a `RegularFile` leaf. -/
theorem c4_witness :
    dirFrom fsC4dir 1 { positive_patterns := [patTxt] } [nmS]
        = .node (.mk [nmS] [] (.link nmT) false)
    ∧ dirFrom fsC4dir 1 { max_depth := some 0, positive_patterns := [patTxt] } [nmS]
        = .excluded
    ∧ dirFrom fsC4file 1 {} [nmS] = .node (.mk [nmS] [] .file false) := by
  refine ⟨c4_theorem.1 fsC4dir 0 { positive_patterns := [patTxt] } [nmS] nmT
      ⟨true, 493, false⟩ (by decide) (by decide) rfl rfl rfl (by decide) (.inl rfl),
    ?_, ?_⟩
  · rw [c4_theorem.2.1 fsC4dir 0 { max_depth := some 0, positive_patterns := [patTxt] }
      [nmS] nmT ⟨true, 493, false⟩ (by decide) (by decide) rfl rfl rfl rfl]
    rfl
  · rw [c4_theorem.2.2 fsC4file 0 {} [nmS] nmT ⟨false, 420, false⟩
      (by decide) (by decide) rfl rfl rfl]
    rfl

/-- C5 (confirmed): once the hidden test passes, if the path matches some
pattern of `negative_patterns ++ vcs_blacklist_patterns` (and no positive
patterns restrict leaves), the entry is excluded exactly when no
`vcs_whitelist_patterns` entry matches; and the `*.log` / `!keep.log`
scenario keeps only `keep.log`. -/
theorem c5_theorem :
    (∀ (fs : FSys) (n : Nat) (cfg : SearchOpts) (obj : Path),
      hiddenStep cfg obj = some false →
      cfg.positive_patterns = [] →
      (cfg.negative_patterns ++ cfg.vcs_blacklist_patterns).any
        (fun p => patMatch (!cfg.case_insensitive_match) p (pathChars obj)) = true →
      (dirFrom fs (n + 1) cfg obj = .excluded ↔
        cfg.vcs_whitelist_patterns.any
          (fun w => patMatch (!cfg.case_insensitive_match) w (pathChars obj)) = false))
    ∧ dirFrom fsLog 2 { use_gitignores := true } [nmD]
        = .node (.mk [nmD] [.mk [nmD, nmKeepLog] [] .file false] .dir false) := by
  constructor
  · intro fs n cfg obj hh hp hb
    constructor
    · intro hexcl
      by_contra hw
      have hw2 : cfg.vcs_whitelist_patterns.any
          (fun w => patMatch (!cfg.case_insensitive_match) w (pathChars obj)) = true := by
        rcases hb2 : cfg.vcs_whitelist_patterns.any
            (fun w => patMatch (!cfg.case_insensitive_match) w (pathChars obj)) with h2 | h2
        · exact absurd hb2 hw
        · rfl
      have he : excludedBy cfg (pathChars obj) = false := by
        rw [excludedBy_eq, hw2]
        simp
      rw [dirFrom_succ_eq fs n cfg obj hh he] at hexcl
      exact dirFromRest_ne_excluded fs _ cfg obj hp hexcl
    · intro hw
      have he : excludedBy cfg (pathChars obj) = true := by
        rw [excludedBy_eq, hb, hw]
        rfl
      exact dirFrom_succ_excl fs n cfg obj hh he
  · rfl

/-- C5 witness: the general exclusion/reinclusion equivalence at a concrete
configuration (a matching blacklist pattern with a matching whitelist
pattern, so the entry is kept). -/
theorem c5_witness :
    dirFrom fsEmpty 1
      { vcs_blacklist_patterns := [patD], vcs_whitelist_patterns := [patD] } [nmD]
      = .excluded ↔ False := by
  rw [c5_theorem.1 fsEmpty 0
    { vcs_blacklist_patterns := [patD], vcs_whitelist_patterns := [patD] } [nmD]
    (by decide) rfl (by decide)]
  decide

/-- C6 (confirmed): the rule set passed to every recursive child call is the
current directory's own parsed ignore rules concatenated with the full
inherited lists (and the CLI negative patterns are carried through
unchanged), so inherited patterns are never removed or reset. -/
theorem c6_theorem :
    ∀ (fs : FSys) (cfg : SearchOpts) (obj : Path) (d : Option Nat),
      (childCfg fs cfg obj d).vcs_blacklist_patterns
          = (if cfg.use_gitignores then inDirOrDefault fs obj else {}).black
            ++ cfg.vcs_blacklist_patterns
      ∧ (childCfg fs cfg obj d).vcs_whitelist_patterns
          = (if cfg.use_gitignores then inDirOrDefault fs obj else {}).white
            ++ cfg.vcs_whitelist_patterns
      ∧ (∀ p ∈ cfg.vcs_blacklist_patterns,
          p ∈ (childCfg fs cfg obj d).vcs_blacklist_patterns)
      ∧ (∀ p ∈ cfg.vcs_whitelist_patterns,
          p ∈ (childCfg fs cfg obj d).vcs_whitelist_patterns)
      ∧ (childCfg fs cfg obj d).negative_patterns = cfg.negative_patterns := by
  intro fs cfg obj d
  refine ⟨rfl, rfl, ?_, ?_, rfl⟩
  · intro p hp
    exact List.mem_append_right _ hp
  · intro p hp
    exact List.mem_append_right _ hp

/-- C6 witness: an inherited blacklist pattern stays in scope for the child
call at a concrete configuration. -/
theorem c6_witness :
    patTxt ∈ (childCfg fsEmpty { vcs_blacklist_patterns := [patTxt] } [nmD]
      none).vcs_blacklist_patterns :=
  (c6_theorem fsEmpty { vcs_blacklist_patterns := [patTxt] } [nmD] none).2.2.1
    patTxt (by simp)

/-- C7 (confirmed): `Dir::prune` is idempotent — pruning (which removes
exactly the directory children without nested content, per
`has_nested_children`) twice yields the same tree as pruning once. -/
theorem c7_theorem : ∀ t : Dir, prune (prune t) = prune t :=
  prune_idem

/-- C8 counterexample: parsing an ignore file consisting of one blank line
yields an exclude pattern (`d/`), not an empty rule set — blank lines are not
skipped. -/
theorem c8_counterexample :
    vcsLines [nmD] [[]] = some ([[Tok.lit 'd', Tok.lit '/']], [])
    ∧ vcsLines [nmD] [[]] ≠ some ([], []) := by
  constructor
  · rfl
  · decide

/-- C8 (amended): a line whose trimmed content starts with `#` contributes no
pattern to either list; a blank line, however, is not skipped: it contributes
the exclude pattern obtained by compiling the ignore-file directory joined
with the empty string (`dir/`). -/
theorem c8_theorem :
    (∀ (parent : Path) (line : Str) (rest : List Str),
      strStarts (strTrim line) '#' = true →
      vcsLines parent (line :: rest) = vcsLines parent rest)
    ∧ (∀ (parent : Path) (line : Str) (rest : List Str),
      strTrim line = [] →
      vcsLines parent (line :: rest)
        = (glob2pat parent []).bind fun p =>
            (vcsLines parent rest).map fun bw => (p :: bw.1, bw.2)) := by
  constructor
  · intro parent line rest h
    simp [vcsLines, h]
  · intro parent line rest h
    simp only [vcsLines, h, strStarts, strStartsEsc]
    rcases hg : glob2pat parent [] with _ | p <;>
      rcases hv : vcsLines parent rest with _ | bw <;>
        simp [hg, hv]

/-- C8 witness: a `#` comment line contributes nothing. -/
theorem c8_witness : vcsLines [nmD] [lineHash] = some ([], []) :=
  (c8_theorem.1 [nmD] lineHash [] (by decide)).trans rfl

/-- Modelled from the spec: "the entry's execute permission bit is set" —
some execute bit (owner, group or other) of the unix permission mode. -/
def specHasExecBit (mode : Nat) : Bool :=
  mode / 64 % 2 == 1 || mode / 8 % 2 == 1 || mode % 2 == 1

/-- C9 counterexample: a non-directory with mode `0o744` has its execute
permission bit set (owner-executable), yet `FType::is_exec` classifies it as
`RegularFile`, because the code tests only `mode % 2` (execute-by-others). -/
theorem c9_counterexample :
    isExecF { fsEmpty with meta := fun p => if p = [nmF] then some ⟨false, 484, false⟩ else none }
        [nmF] = some .file
    ∧ specHasExecBit 484 = true := by
  constructor
  · rfl
  · decide

/-- C9 (amended): on the unix model, a non-directory leaf with readable
metadata is classified `Executable` iff the lowest bit of its permission mode
(execute-by-others) is set, and `RegularFile` otherwise. -/
theorem c9_theorem :
    ∀ (fs : FSys) (p : Path) (m : Meta),
      fs.meta p = some m → m.isDir = false →
      ((isExecF fs p = some .exe) ↔ m.mode % 2 = 1)
      ∧ (m.mode % 2 ≠ 1 → isExecF fs p = some .file) := by
  intro fs p m hm hd
  have hpd : pIsDir fs p = false := by simp [pIsDir, hm, hd]
  unfold isExecF
  rw [hpd, hm]
  simp only [Bool.false_eq_true, if_false]
  constructor
  · constructor
    · intro h
      by_cases h2 : m.mode % 2 = 1
      · exact h2
      · have hb : (m.mode % 2 == 1) = false := by simpa using h2
        rw [hb] at h
        simp at h
    · intro h2
      have hb : (m.mode % 2 == 1) = true := by simpa using h2
      rw [hb]
      simp
  · intro h2
    have hb : (m.mode % 2 == 1) = false := by simpa using h2
    rw [hb]
    simp

/-- C9 witness: mode `0o755` is classified `Executable`. -/
theorem c9_witness :
    isExecF { fsEmpty with meta := fun p => if p = [nmF] then some ⟨false, 493, false⟩ else none }
      [nmF] = some .exe :=
  ((c9_theorem _ [nmF] ⟨false, 493, false⟩ (by decide) rfl).1).mpr (by decide)

/-- C10 (confirmed): only `Directory` nodes ever carry non-empty children —
established by construction (`Dir::from` at any fuel) and preserved by
`sort_children` and `prune`; in particular a `SymbolicLink` node never has
children. -/
theorem c10_theorem :
    (∀ (fs : FSys) (n : Nat) (cfg : SearchOpts) (obj : Path) (t : Dir),
      dirFrom fs n cfg obj = .node t → childrenInv t = true)
    ∧ (∀ t : Dir, childrenInv t = true → childrenInv (sortChildren t) = true)
    ∧ (∀ t : Dir, childrenInv t = true → childrenInv (prune t) = true) :=
  ⟨fun fs n cfg obj t h => dirFrom_inv n fs cfg obj t h,
   childrenInv_sortChildren, childrenInv_prune⟩

/-- C10 witness: the invariant at the concrete ignore-file scenario tree,
through construction, sorting and pruning. -/
theorem c10_witness :
    childrenInv (Dir.mk [nmD] [.mk [nmD, nmKeepLog] [] .file false] .dir false) = true
    ∧ childrenInv (sortChildren
        (Dir.mk [nmD] [.mk [nmD, nmKeepLog] [] .file false] .dir false)) = true
    ∧ childrenInv (prune
        (Dir.mk [nmD] [.mk [nmD, nmKeepLog] [] .file false] .dir false)) = true :=
  have h1 := c10_theorem.1 fsLog 2 { use_gitignores := true } [nmD]
    (Dir.mk [nmD] [.mk [nmD, nmKeepLog] [] .file false] .dir false) (by rfl)
  ⟨h1, c10_theorem.2.1 _ h1, c10_theorem.2.2 _ h1⟩

end Trx
